import Mathlib

/-!
Verification of the `landscape_api` Python package (Landscape API client)
against its natural-language specification.

The relevant parts of `landscape_api/base.py` are shallowly embedded below:
pure helper functions become Lean functions; the params dictionary becomes an
association list with unique keys (a Python `dict` in insertion order);
exceptions become `Except`/error inductives.  Machine integers do not occur in
the source except inside SHA-256, which is modelled over `Nat` with explicit
`% 2 ^ 32`.
-/

namespace LandscapeApi

/-! ### Association lists modelling Python dicts

A Python `dict` is modelled as a `List (String × α)` with unique keys, kept in
insertion order.  `dictInsert` models `d[k] = v` (replace in place if the key
exists, else append), `dictRemove` models `d.pop(k)`, `lookupD` models
`d.get(k)` / `k in d`, and `dictUpdate` models `d.update(items)`. -/

instance {ε α : Type} [DecidableEq ε] [DecidableEq α] : DecidableEq (Except ε α) :=
  fun a b =>
    match a, b with
    | .error e, .error f =>
        if h : e = f then .isTrue (by rw [h])
        else .isFalse (by intro hh; cases hh; exact h rfl)
    | .ok x, .ok y =>
        if h : x = y then .isTrue (by rw [h])
        else .isFalse (by intro hh; cases hh; exact h rfl)
    | .error _, .ok _ => .isFalse (by intro hh; cases hh)
    | .ok _, .error _ => .isFalse (by intro hh; cases hh)

def lookupD {α : Type} (d : List (String × α)) (k : String) : Option α :=
  match d with
  | [] => none
  | (k₀, v₀) :: rest => if k₀ = k then some v₀ else lookupD rest k

def dictInsert {α : Type} (d : List (String × α)) (k : String) (v : α) :
    List (String × α) :=
  match d with
  | [] => [(k, v)]
  | (k₀, v₀) :: rest =>
      if k₀ = k then (k, v) :: rest else (k₀, v₀) :: dictInsert rest k v

def dictRemove {α : Type} (d : List (String × α)) (k : String) :
    List (String × α) :=
  match d with
  | [] => []
  | (k₀, v₀) :: rest => if k₀ = k then rest else (k₀, v₀) :: dictRemove rest k

def dictUpdate {α : Type} (d upd : List (String × α)) : List (String × α) :=
  upd.foldl (fun acc kv => dictInsert acc kv.1 kv.2) d

/-! ### Python string ordering

Python compares strings lexicographically by code point and tuples
componentwise; `sorted(params.items())` therefore sorts pairs by
(key, value) under that order.  `charListLt` is the strict order on the
underlying character lists. -/

def charListLt : List Char → List Char → Bool
  | [], [] => false
  | [], _ :: _ => true
  | _ :: _, [] => false
  | a :: as, b :: bs =>
      if a.toNat < b.toNat then true
      else if b.toNat < a.toNat then false
      else charListLt as bs

def strLt (s t : String) : Bool := charListLt s.data t.data

/-- Python `<` on `(str, str)` tuples: compare first components, tie-break on
the second. -/
def pairLt (a b : String × String) : Bool :=
  strLt a.1 b.1 || (a.1 = b.1 && strLt a.2 b.2)

/-- One step of the sort performed by Python `sorted`: insert `x` into an
already sorted list, after any elements not strictly greater than it
(Python's sort is stable). -/
def insertSorted (x : String × String) :
    List (String × String) → List (String × String)
  | [] => [x]
  | y :: ys => if pairLt x y then x :: y :: ys else y :: insertSorted x ys

/-- `sorted(params.items())`: ascending stable sort by the pair order. -/
def sortPairs (l : List (String × String)) : List (String × String) :=
  l.foldl (fun acc x => insertSorted x acc) []

/-! ### Percent-encoding: `urllib.parse.quote(s, safe="~")`

`quote` never encodes ASCII letters, digits and `_.-~` (the `safe="~"`
argument adds nothing beyond the default always-safe set, but pins `~`
unescaped); every other character is encoded as the `%XX` upper-case hex of
each of its UTF-8 bytes. -/

def isAsciiDigitC (c : Char) : Bool := 48 ≤ c.toNat && c.toNat ≤ 57

def isAsciiAlphaC (c : Char) : Bool :=
  (65 ≤ c.toNat && c.toNat ≤ 90) || (97 ≤ c.toNat && c.toNat ≤ 122)

def quoteSafeChar (c : Char) : Bool :=
  isAsciiAlphaC c || isAsciiDigitC c ||
    c = '_' || c = '.' || c = '-' || c = '~'

/-- The UTF-8 bytes of a character, each as a `Nat < 256`. -/
def utf8Bytes (c : Char) : List Nat :=
  let n := c.toNat
  if n < 128 then [n]
  else if n < 2048 then [192 + n / 64, 128 + n % 64]
  else if n < 65536 then
    [224 + n / 4096, 128 + n / 64 % 64, 128 + n % 64]
  else
    [240 + n / 262144, 128 + n / 4096 % 64, 128 + n / 64 % 64, 128 + n % 64]

/-- Upper-case hexadecimal digit, as `%X` formatting uses. -/
def hexDigitUpper (n : Nat) : Char :=
  if n < 10 then Char.ofNat (48 + n) else Char.ofNat (55 + n)

def percentByte (b : Nat) : List Char :=
  ['%', hexDigitUpper (b / 16 % 16), hexDigitUpper (b % 16)]

def quoteChar (c : Char) : List Char :=
  if quoteSafeChar c then [c] else (utf8Bytes c).flatMap percentByte

/-- `urllib.parse.quote(s, safe="~")`. -/
def quote (s : String) : String :=
  String.mk (s.data.flatMap quoteChar)

/-- The canonical parameter string built inside `run_query`
(`base.py` lines 220-223): sort the pairs by the raw (key, value) pair,
percent-encode each side, join `key=value` with `&`. -/
def canonicalParams (params : List (String × String)) : String :=
  String.intercalate "&"
    ((sortPairs params).map fun kv => quote kv.1 ++ "=" ++ quote kv.2)

/-- The canonical parameter string as claim C1 words it: percent-encode each
key and value first, then sort lexicographically by the (encoded key,
encoded value) pair, then join.  This is the claim's construction, to be
compared with the code's `canonicalParams`. -/
def claimedCanonicalParams (params : List (String × String)) : String :=
  String.intercalate "&"
    ((sortPairs (params.map fun kv => (quote kv.1, quote kv.2))).map
      fun kv => kv.1 ++ "=" ++ kv.2)

/-! ### SHA-256, HMAC-SHA256 and base64

`run_query` signs with `hmac.new(secret_key, to_sign, sha256).digest()` and
`b64encode`.  These library primitives are modelled concretely: 32-bit words
are `Nat` reduced with `% 2 ^ 32`, byte strings are `List Nat` with entries
below 256. -/

def w32 (n : Nat) : Nat := n % 4294967296

def rotr32 (n w : Nat) : Nat := w32 (w / 2 ^ n + w % 2 ^ n * 2 ^ (32 - n))

def xor32 (a b : Nat) : Nat := Nat.xor a b

def not32 (a : Nat) : Nat := Nat.xor a 4294967295

def sha256K : List Nat :=
  [1116352408, 1899447441, 3049323471, 3921009573, 961987163, 1508970993,
   2453635748, 2870763221, 3624381080, 310598401, 607225278, 1426881987,
   1925078388, 2162078206, 2614888103, 3248222580, 3835390401, 4022224774,
   264347078, 604807628, 770255983, 1249150122, 1555081692, 1996064986,
   2554220882, 2821834349, 2952996808, 3210313671, 3336571891, 3584528711,
   113926993, 338241895, 666307205, 773529912, 1294757372, 1396182291,
   1695183700, 1986661051, 2177026350, 2456956037, 2730485921, 2820302411,
   3259730800, 3345764771, 3516065817, 3600352804, 4094571909, 275423344,
   430227734, 506948616, 659060556, 883997877, 958139571, 1322822218,
   1537002063, 1747873779, 1955562222, 2024104815, 2227730452, 2361852424,
   2428436474, 2756734187, 3204031479, 3329325298]

def sha256H0 : List Nat :=
  [1779033703, 3144134277, 1013904242, 2773480762, 1359893119, 2600822924,
   528734635, 1541459225]

/-- Eight bytes, big endian, of a (bit-)length. -/
def be8 (n : Nat) : List Nat :=
  [n / 2 ^ 56 % 256, n / 2 ^ 48 % 256, n / 2 ^ 40 % 256, n / 2 ^ 32 % 256,
   n / 2 ^ 24 % 256, n / 2 ^ 16 % 256, n / 2 ^ 8 % 256, n % 256]

/-- SHA-256 padding: append `0x80`, zero bytes to 56 mod 64, then the 64-bit
big-endian bit length. -/
def sha256Pad (msg : List Nat) : List Nat :=
  let z := (120 - (msg.length + 1) % 64) % 64
  msg ++ [128] ++ List.replicate z 0 ++ be8 (msg.length * 8)

/-- Big-endian 32-bit words from a byte list (length a multiple of 4). -/
def wordsOfBytes : List Nat → List Nat
  | b0 :: b1 :: b2 :: b3 :: rest =>
      (b0 * 16777216 + b1 * 65536 + b2 * 256 + b3) :: wordsOfBytes rest
  | _ => []

/-- Big-endian bytes of a list of 32-bit words. -/
def bytesOfWords (ws : List Nat) : List Nat :=
  ws.flatMap fun w => [w / 16777216 % 256, w / 65536 % 256, w / 256 % 256, w % 256]

def sha256s0 (w : Nat) : Nat := xor32 (xor32 (rotr32 7 w) (rotr32 18 w)) (w / 8)

def sha256s1 (w : Nat) : Nat := xor32 (xor32 (rotr32 17 w) (rotr32 19 w)) (w / 1024)

/-- Extend 16 schedule words to 64. -/
def sha256Schedule (w16 : List Nat) : List Nat :=
  (List.range 48).foldl
    (fun w _ =>
      let i := w.length
      w ++ [w32 (w.getD (i - 16) 0 + sha256s0 (w.getD (i - 15) 0) +
                 w.getD (i - 7) 0 + sha256s1 (w.getD (i - 2) 0))])
    w16

/-- One compression round; the state is the eight working words `a..h`. -/
def sha256Round (st : List Nat) (kw : Nat × Nat) : List Nat :=
  let a := st.getD 0 0
  let b := st.getD 1 0
  let c := st.getD 2 0
  let d := st.getD 3 0
  let e := st.getD 4 0
  let f := st.getD 5 0
  let g := st.getD 6 0
  let h := st.getD 7 0
  let bigS1 := xor32 (xor32 (rotr32 6 e) (rotr32 11 e)) (rotr32 25 e)
  let ch := xor32 (Nat.land e f) (Nat.land (not32 e) g)
  let temp1 := w32 (h + bigS1 + ch + kw.1 + kw.2)
  let bigS0 := xor32 (xor32 (rotr32 2 a) (rotr32 13 a)) (rotr32 22 a)
  let maj := xor32 (xor32 (Nat.land a b) (Nat.land a c)) (Nat.land b c)
  let temp2 := w32 (bigS0 + maj)
  [w32 (temp1 + temp2), a, b, c, w32 (d + temp1), e, f, g]

/-- Process one 64-byte chunk into the running hash (eight words). -/
def sha256Chunk (h : List Nat) (chunk : List Nat) : List Nat :=
  let w := sha256Schedule (wordsOfBytes chunk)
  let st := (sha256K.zip w).foldl sha256Round h
  (h.zip st).map fun p => w32 (p.1 + p.2)

/-- Split a byte list into successive 64-byte chunks (the padded message
length is a multiple of 64). -/
def chunks64Go (cur : List Nat) : List Nat → List (List Nat)
  | [] => if cur = [] then [] else [cur]
  | b :: rest =>
      let cur := cur ++ [b]
      if cur.length = 64 then cur :: chunks64Go [] rest else chunks64Go cur rest

def chunks64 (l : List Nat) : List (List Nat) := chunks64Go [] l

/-- SHA-256 digest of a byte list, as 32 bytes. -/
def sha256Digest (msg : List Nat) : List Nat :=
  bytesOfWords ((chunks64 (sha256Pad msg)).foldl sha256Chunk sha256H0)

/-- `hmac.new(key, msg, sha256).digest()`: block size 64, `ipad`/`opad`
translation of RFC 2104 as the Python `hmac` module implements it. -/
def hmacSha256 (key msg : List Nat) : List Nat :=
  let key := if 64 < key.length then sha256Digest key else key
  let key := key ++ List.replicate (64 - key.length) 0
  let ipad := key.map fun b => Nat.xor b 54
  let opad := key.map fun b => Nat.xor b 92
  sha256Digest (opad ++ sha256Digest (ipad ++ msg))

/-- The base64 alphabet. -/
def b64Alphabet : List Char :=
  "ABCDEFGHIJKLMNOPQRSTUVWXYZabcdefghijklmnopqrstuvwxyz0123456789+/".data

def b64Char (n : Nat) : Char := b64Alphabet.getD n '?'

/-- `base64.b64encode`, as the string of base64 characters (the Python value
is that string's ASCII bytes). -/
def b64encode : List Nat → String
  | [] => ""
  | [a] =>
      let n := a * 65536
      String.mk [b64Char (n / 262144), b64Char (n / 4096 % 64), '=', '=']
  | [a, b] =>
      let n := a * 65536 + b * 256
      String.mk [b64Char (n / 262144), b64Char (n / 4096 % 64),
                 b64Char (n / 64 % 64), '=']
  | a :: b :: c :: rest =>
      let n := a * 65536 + b * 256 + c
      String.mk [b64Char (n / 262144), b64Char (n / 4096 % 64),
                 b64Char (n / 64 % 64), b64Char (n % 64)] ++ b64encode rest

/-- `s.encode("ascii")`: the code points of an ASCII string as bytes.  (For a
non-ASCII string Python would raise `UnicodeEncodeError`; the signing claims
only involve ASCII data.) -/
def strBytes (s : String) : List Nat := s.data.map Char.toNat

/-! ### `parse` (`base.py` lines 146-171)

`parse` splits a URL into host, port and path.  It checks the scheme on the
lower-cased URL, strips whitespace, runs `urlparse`, re-joins everything
after the netloc with `urlunparse`, and splits a `host:port` netloc, turning
a non-numeric port into `None` via the caught `ValueError` of `int(port)`.

`urlparse` is modelled for absolute `http`/`https` URLs: the netloc is what
follows `//` up to the first `/`, `?` or `#`; `urlunparse(("", "") +
parsed[2:])` re-joins path, params, query and fragment, dropping a delimiter
whose component is empty.  `.lower()` and `str.strip()` are modelled on
ASCII, which covers every URL the claims quantify over. -/

def startsWithCh : List Char → List Char → Bool
  | [], _ => true
  | _ :: _, [] => false
  | a :: as, b :: bs => a = b && startsWithCh as bs

def pyIsSpace (c : Char) : Bool :=
  c = ' ' || c = '\t' || c = '\n' || c = '\r' || c.toNat = 11 || c.toNat = 12

def pyStripChars (l : List Char) : List Char :=
  ((l.dropWhile pyIsSpace).reverse.dropWhile pyIsSpace).reverse

def asciiLowerChar (c : Char) : Char :=
  if 65 ≤ c.toNat && c.toNat ≤ 90 then Char.ofNat (c.toNat + 32) else c

/-- Python `int(s)` on ASCII text, as an `Option`: optional surrounding
whitespace, an optional sign, then decimal digits that may contain single
underscores between digits.  `none` models the `ValueError`. -/
def pyIntDigitsGo : List Char → Nat → Option Nat
  | [], acc => some acc
  | '_' :: c :: rest, acc =>
      if isAsciiDigitC c then pyIntDigitsGo rest (acc * 10 + (c.toNat - 48))
      else none
  | ['_'], _ => none
  | c :: rest, acc =>
      if isAsciiDigitC c then pyIntDigitsGo rest (acc * 10 + (c.toNat - 48))
      else none

def pyIntDigits : List Char → Option Nat
  | [] => none
  | c :: rest =>
      if isAsciiDigitC c then pyIntDigitsGo rest (c.toNat - 48) else none

def pyIntOption (s : String) : Option Int :=
  match pyStripChars s.data with
  | '+' :: rest => (pyIntDigits rest).map Int.ofNat
  | '-' :: rest => (pyIntDigits rest).map fun n => -(n : Int)
  | rest => (pyIntDigits rest).map Int.ofNat

/-- Split at the first occurrence of `c`: the part before it, and the part
after it when it occurs (Python `str.split(c, 1)`). -/
def splitFirst (c : Char) (l : List Char) : List Char × Option (List Char) :=
  match l.dropWhile (· ≠ c) with
  | [] => (l.takeWhile (· ≠ c), none)
  | _ :: t => (l.takeWhile (· ≠ c), some t)

/-- Split before the last `/` (used by `urlparse`'s params splitting). -/
def splitAtLastSlash : List Char → List Char × List Char
  | [] => ([], [])
  | c :: rest =>
      if rest.contains '/' then
        let ba := splitAtLastSlash rest
        (c :: ba.1, ba.2)
      else if c = '/' then ([], c :: rest)
      else (c :: rest, [])

/-- `urlparse`'s split of params off the path: the first `;` at or after the
last `/` when the path has one, else the first `;` anywhere. -/
def splitParamsOff (path : List Char) : List Char × Option (List Char) :=
  if path.contains '/' then
    let ba := splitAtLastSlash path
    let sp := splitFirst ';' ba.2
    (ba.1 ++ sp.1, sp.2)
  else splitFirst ';' path

/-- `urlunparse(("", "") + parsed[2:])` applied to everything after the
netloc: split off fragment, query and params as `urlparse` does, then re-join
them, omitting a delimiter whose component is empty. -/
def urlunparseTail (rest : List Char) : List Char :=
  let f := splitFirst '#' rest
  let q := splitFirst '?' f.1
  let pp := splitParamsOff q.1
  pp.1 ++
    (match pp.2 with
     | some p => if p = [] then [] else ';' :: p
     | none => []) ++
    (match q.2 with
     | some qq => if qq = [] then [] else '?' :: qq
     | none => []) ++
    (match f.2 with
     | some ff => if ff = [] then [] else '#' :: ff
     | none => [])

def notNetlocEnd (c : Char) : Bool := !(c = '/' || c = '?' || c = '#')

/-- Python `s.split(sep)` for a one-character separator: every occurrence
splits, empty pieces included. -/
def splitOnChar (sep : Char) : List Char → List (List Char)
  | [] => [[]]
  | c :: rest =>
      let r := splitOnChar sep rest
      if c = sep then [] :: r
      else
        match r with
        | h :: t => (c :: h) :: t
        | [] => [[c]]

/-- The netloc/path step of `parse`: split off host and port, with
`int(port)`'s `ValueError` caught into a `None` port and the netloc
unpacking `ValueError` propagated. -/
def parseNetloc (netloc tail : List Char) :
    Except String (String × Option Int × String) :=
  let path := String.mk (urlunparseTail tail)
  let host := String.mk netloc
  if netloc.contains ':' then
    match (splitOnChar ':' netloc).map String.mk with
    | [h, p] =>
        match pyIntOption p with
        | some n => .ok (h, some n, path)
        | none => .ok (h, none, path)
    | _ => .error "ValueError"
  else .ok (host, none, path)

/-- Everything after the `scheme://` of a stripped URL: the netloc runs to
the first `/`, `?` or `#`. -/
def parseAfterScheme (afterScheme : List Char) :
    Except String (String × Option Int × String) :=
  parseNetloc (afterScheme.takeWhile notNetlocEnd)
    (afterScheme.dropWhile notNetlocEnd)

def parseStripped (stripped : List Char) :
    Except String (String × Option Int × String) :=
  parseAfterScheme ((stripped.dropWhile (· ≠ ':')).drop 3)

def parseL (l : List Char) : Except String (String × Option Int × String) :=
  let lowurl := l.map asciiLowerChar
  if !(startsWithCh "http://".data lowurl || startsWithCh "https://".data lowurl) then
    .error "SyntaxError"
  else
    parseStripped (pyStripChars l)

/-- `parse(url)` from `base.py`: `(host, port, path)` or the raised
exception (`SyntaxError` on a bad scheme, `ValueError` when the netloc has
more than one `:` and tuple unpacking fails). -/
def parse (url : String) : Except String (String × Option Int × String) :=
  parseL url.data

/-! ### The signing steps of `run_query` (`base.py` lines 174-229)

The effectful pieces (the timestamp read and the HTTP fetch) are factored
out: the timestamp is an explicit argument, and the function returns the
POST body that would be handed to `fetch`.  The mutation of the
caller-supplied `params` dict (lines 195-213) is `runQueryParamsAfter`. -/

/-- The re-keying loop of lines 195-201: each item is popped and re-inserted
(on string keys this moves every key to the back in turn, preserving the
content of the dict). -/
def coerceParams (params : List (String × String)) : List (String × String) :=
  params.foldl (fun acc kv => dictInsert (dictRemove acc kv.1) kv.1 kv.2) params

/-- The state of the caller's `params` dict after the `params.update(...)` of
lines 204-213 — which is its state when `run_query` returns or raises, since
`run_query` never removes these entries. -/
def runQueryParamsAfter (params : List (String × String))
    (accessKey action timestamp version : String) : List (String × String) :=
  dictUpdate (coerceParams params)
    [("access_key_id", accessKey), ("action", action),
     ("signature_version", "2"), ("signature_method", "HmacSHA256"),
     ("timestamp", timestamp), ("version", version)]

/-- Lines 203-229 of `run_query` with the timestamp passed in: merge the
signing parameters, parse the URI, build the sorted percent-encoded
parameter string, sign it, and return the POST body. -/
def runQuerySign (accessKey secretKey action : String)
    (params : List (String × String)) (uri version timestamp : String) :
    Except String String :=
  let params := runQueryParamsAfter params accessKey action timestamp version
  match parse uri with
  | .error e => .error e
  | .ok (host, port, path) =>
      let signedHost := match port with
        | some p => host ++ ":" ++ toString p
        | none => host
      let path := if path = "" then "/" else path
      let signedParams := String.intercalate "&"
        ((sortPairs params).map fun kv => quote kv.1 ++ "=" ++ quote kv.2)
      let toSign := "POST" ++ "\n" ++ signedHost ++ "\n" ++ path ++ "\n" ++ signedParams
      let digest := hmacSha256 (strBytes secretKey) (strBytes toSign)
      let signature := b64encode digest
      .ok (signedParams ++ "&signature=" ++ quote signature)

/-- `run_query` with its time source made explicit: `clock` maps the index of
a `time.strftime(...)` call to the string it returns.  The body reads the
clock exactly once, at index 0; the returned counter is the number of clock
reads performed. -/
def runQuerySignClock (clock : Nat → String) (accessKey secretKey action : String)
    (params : List (String × String)) (uri version : String) :
    Except String String × Nat :=
  let reads0 := 0
  let timestamp := clock reads0
  let reads1 := reads0 + 1
  (runQuerySign accessKey secretKey action params uri version timestamp, reads1)

/-! ### The error taxonomy (`base.py` lines 240-295)

`_build_exceptions` walks every version handler of every action and
registers a freshly built exception class for each declared error code,
under the code's name normalized to end in `"Error"`, skipping names already
registered.  A class built by the n-th `_build_exception` call is modelled
as the number n, so that which registration won is observable.  The schema
is its relevant shape: actions mapped to version handlers mapped to their
list of error codes. -/

def pyEndsWith (s suf : String) : Bool :=
  startsWithCh suf.data.reverse s.data.reverse

def _get_error_code_name (code : String) : String :=
  if pyEndsWith code "Error" then code else code ++ "Error"

def lookup_error (errors : List (String × Nat)) (name : String) : Option Nat :=
  lookupD errors name

def add_error (errors : List (String × Nat)) (name : String) (kind : Nat) :
    List (String × Nat) :=
  dictInsert errors name kind

def buildExceptionsGo : List String → List (String × Nat) → Nat → List (String × Nat)
  | [], errors, _ => errors
  | code :: rest, errors, counter =>
      let name := _get_error_code_name code
      let errors :=
        if (lookup_error errors name).isSome then errors
        else add_error errors name counter
      buildExceptionsGo rest errors (counter + 1)

/-- The error codes of a schema in iteration order (dicts iterate in
insertion order). -/
def schemaErrorCodes (schema : List (String × List (String × List String))) :
    List String :=
  schema.flatMap fun av => av.2.flatMap fun vh => vh.2

def _build_exceptions (schema : List (String × List (String × List String))) :
    List (String × Nat) :=
  buildExceptionsGo (schemaErrorCodes schema) [] 0

/-- The lookup `run_query` (line 234) and `MultiError` (lines 319-321)
perform on a wire error code: normalize, then look up. -/
def resolveErrorCode (errors : List (String × Nat)) (code : String) : Option Nat :=
  lookup_error errors (_get_error_code_name code)

/-! ### `_lowercase_api_name` (`base.py` lines 252-254)

Two regex substitutions then `.lower()`:
`re.sub("(.)([A-Z][a-z]+)", r"\1_\2", name)` and
`re.sub("([a-z0-9])([A-Z])", r"\1_\2", s1)`.  Both are implemented as
left-to-right non-overlapping greedy scans; `camelSub1Go` carries the input
length as fuel so the definition reduces (each step consumes at least one
character, so the fuel never runs out). -/

def isUpperC (c : Char) : Bool := 65 ≤ c.toNat && c.toNat ≤ 90

def isLowerC (c : Char) : Bool := 97 ≤ c.toNat && c.toNat ≤ 122

def isLowerDigitC (c : Char) : Bool := isLowerC c || isAsciiDigitC c

/-- The greedy `[a-z]+` run and the remainder. -/
def takeLowerRun : List Char → List Char × List Char
  | [] => ([], [])
  | c :: rest =>
      if isLowerC c then
        let rt := takeLowerRun rest
        (c :: rt.1, rt.2)
      else ([], c :: rest)

def camelSub1Go : Nat → List Char → List Char
  | 0, l => l
  | fuel + 1, l =>
      match l with
      | c :: u :: d :: rest =>
          if isUpperC u && isLowerC d then
            let rt := takeLowerRun (d :: rest)
            c :: '_' :: u :: (rt.1 ++ camelSub1Go fuel rt.2)
          else c :: camelSub1Go fuel (u :: d :: rest)
      | l => l

/-- `re.sub("(.)([A-Z][a-z]+)", r"\1_\2", ·)`. -/
def camelSub1 (l : List Char) : List Char := camelSub1Go l.length l

/-- `re.sub("([a-z0-9])([A-Z])", r"\1_\2", ·)`; a match consumes both
characters, so scanning resumes after the upper-case letter. -/
def camelSub2 : List Char → List Char
  | a :: b :: rest =>
      if isLowerDigitC a && isUpperC b then a :: '_' :: b :: camelSub2 rest
      else a :: camelSub2 (b :: rest)
  | l => l

def _lowercase_api_name (name : String) : String :=
  String.mk ((camelSub2 (camelSub1 name.data)).map asciiLowerChar)

/-! ### Argument encoding (`_API._encode_*`, `base.py` lines 431-534)

Caller-supplied argument values are modelled by `Value`:

* `Value.str` — a Python `str`;
* `Value.bytes` — a Python `bytes` whose UTF-8 decoding is the carried
  string (all the source ever does with such a value is decode it);
* `Value.date` — a `datetime`/`date` object, carried as its
  `strftime("%Y-%m-%dT%H:%M:%SZ")` rendering, the only way the source
  renders one;
* `Value.pyNone`, `Value.bool`, `Value.int`, `Value.list` — the obvious
  things.

A parameter description (a schema dict) becomes `Param`: its `"type"`
string, the truthiness of `parameter.get("optional")`, the
`parameter.get("default")` value (`Value.pyNone` doubles as an absent key,
exactly like `dict.get`), and the `"item"` sub-descriptor when present. -/

inductive Value where
  | str (s : String)
  | bytes (decoded : String)
  | bool (b : Bool)
  | int (n : Int)
  | date (formatted : String)
  | pyNone
  | list (items : List Value)

inductive Param where
  | mk (type : String) (optional : Bool) (dflt : Value) (item : Option Param)

def Param.type : Param → String
  | .mk t _ _ _ => t

def Param.optional : Param → Bool
  | .mk _ o _ _ => o

def Param.dflt : Param → Value
  | .mk _ _ d _ => d

def Param.item : Param → Option Param
  | .mk _ _ _ i => i

mutual
/-- Python `==` on the values above.  `True == 1` and `False == 0` hold
(bools are ints); values of unrelated types compare unequal.  (Equality of
two `date` objects is compared through their renderings; no claim compares
dates.) -/
def pyEq : Value → Value → Bool
  | .str a, .str b => a = b
  | .bytes a, .bytes b => a = b
  | .bool a, .bool b => a = b
  | .bool a, .int b => (if a then (1 : Int) else 0) = b
  | .int a, .bool b => a = (if b then (1 : Int) else 0)
  | .int a, .int b => a = b
  | .date a, .date b => a = b
  | .pyNone, .pyNone => true
  | .list a, .list b => pyEqList a b
  | _, _ => false

def pyEqList : List Value → List Value → Bool
  | [], [] => true
  | a :: as, b :: bs => pyEq a b && pyEqList as bs
  | _, _ => false
end

/-- Python truthiness, as `_encode_boolean` uses it. -/
def pyTruthy : Value → Bool
  | .str s => !(s == "")
  | .bytes b => !(b == "")
  | .bool b => b
  | .int n => !(n == 0)
  | .date _ => true
  | .pyNone => false
  | .list l => !l.isEmpty

/-- Python `str(value)` for the values the encoders cast (`str`, ints,
bools; no claim casts a container, a date or `None`, whose `repr`-style
renderings are sketched only). -/
def pyStr : Value → String
  | .str s => s
  | .bytes b => "b" ++ String.singleton (Char.ofNat 39) ++ b ++ String.singleton (Char.ofNat 39)
  | .bool b => if b then "True" else "False"
  | .int n => toString n
  | .date d => d
  | .pyNone => "None"
  | .list _ => "[...]"

/-- Python `s.strip()` on a string value. -/
def pyStrip (s : String) : String := String.mk (pyStripChars s.data)

/-- Python `s.split(sep)` for a one-character separator, on strings. -/
def pySplitOn (sep : Char) (s : String) : List String :=
  (splitOnChar sep s.data).map String.mk

/-- Python `s.replace(old, new)` for one-character `old` and `new`. -/
def pyReplaceChar (old new : Char) (s : String) : String :=
  String.mk (s.data.map fun c => if c = old then new else c)

/-- The exceptions the encoders raise.  `missingParameter` and
`extraArguments` are the two `TypeError`s of `_encode_struct_fields`,
distinguished by their messages; `typeError` is the `TypeError` raised by
`str(value, "utf-8")` on a non-bytes value; `attributeError` is the
`AttributeError` of `getattr(self, "_encode_%s" % kind)` on an undeclared
kind or of `value.strftime` on a non-date; `keyError` is `parameter["item"]`
on a list descriptor without one; `unmodelled` marks the handlers the model
leaves out (`file`, `data`, `mapping`, `structure` do file IO or recursive
struct encoding; no claim touches them). -/
inductive EncErr where
  | missingParameter (name : String)
  | extraArguments (args : List (String × Value))
  | typeError (msg : String)
  | attributeError (name : String)
  | keyError (key : String)
  | unmodelled (kind : String)

/-- `_encode_date`: a string passes through, a date object is rendered with
`strftime`, anything else raises `AttributeError` on `.strftime`. -/
def encodeDateVal (name : String) (value : Value) :
    Except EncErr (List (String × String)) :=
  match value with
  | .str s => .ok [(name, s)]
  | .date d => .ok [(name, d)]
  | _ => .error (.attributeError "strftime")

/-- `_encode_unicode` (also `unicode_line`/`unicode_title`): a
datetime/date redirects to `_encode_date`; anything else goes through
`str(value, "utf-8")`, which decodes a `bytes` and raises `TypeError` for
every other type — including plain `str`. -/
def encodeUnicodeVal (name : String) (value : Value) :
    Except EncErr (List (String × String)) :=
  match value with
  | .date d => encodeDateVal name (.date d)
  | .bytes b => .ok [(name, b)]
  | .str _ => .error (.typeError "decoding str is not supported")
  | _ => .error (.typeError "decoding to str: need a bytes-like object")

/-- `_API._encode_argument` with the handlers it dispatches to inlined.  An
optional parameter whose value `==` its default encodes to nothing at all;
otherwise `getattr(self, "_encode_%s" % kind)` picks the handler off the
`"type"` field (spaces replaced by `_`). -/
def _encode_argument : Param → String → Value → Except EncErr (List (String × String))
  | .mk ptype popt pdflt pitem, name, value =>
    if popt && pyEq value pdflt then .ok []
    else
      let kind := pyReplaceChar ' ' '_' ptype
      if kind = "integer" || kind = "float" || kind = "raw_string" || kind = "enum" then
        .ok [(name, pyStr value)]
      else if kind = "unicode" || kind = "unicode_line" || kind = "unicode_title" then
        encodeUnicodeVal name value
      else if kind = "boolean" then
        .ok [(name, if pyTruthy value then "true" else "false")]
      else if kind = "date" then
        encodeDateVal name value
      else if kind = "list" then
        match pitem with
        | none => .error (.keyError "item")
        | some ip =>
            let seq : Except EncErr (List Value) :=
              match value with
              | .str s => .ok ((pySplitOn ',' s).map fun x => Value.str (pyStrip x))
              | .list items => .ok items
              | _ => .error (.typeError "not iterable")
            match seq with
            | .error e => .error e
            | .ok items =>
                (items.enum.map fun iv =>
                    _encode_argument ip (name ++ "." ++ toString (iv.1 + 1)) iv.2).foldl
                  (fun acc enc =>
                    match acc, enc with
                    | .error e, _ => .error e
                    | .ok _, .error e => .error e
                    | .ok r, .ok e => .ok (dictUpdate r e))
                  (.ok [])
      else if kind = "file" || kind = "data" || kind = "mapping" || kind = "structure" then
        .error (.unmodelled kind)
      else .error (.attributeError ("_encode_" ++ kind))

/-- `_API._encode_struct_fields`, accumulator form: walk the declared
fields in order; a missing required field raises at once, a present field is
popped out of `arguments` and encoded into the result, and leftover
arguments raise after the loop. -/
def encodeStructGo : List (String × Param) → List (String × Value) → String →
    List (String × String) → Except EncErr (List (String × String))
  | [], args, _, acc =>
      if args.isEmpty then .ok acc else .error (.extraArguments args)
  | (n, p) :: fs, args, pre, acc =>
      match lookupD args n with
      | none =>
          if p.optional then encodeStructGo fs args pre acc
          else .error (.missingParameter n)
      | some v =>
          match _encode_argument p (pre ++ n) v with
          | .error e => .error e
          | .ok enc => encodeStructGo fs (dictRemove args n) pre (dictUpdate acc enc)

def _encode_struct_fields (fields : List (String × Param))
    (args : List (String × Value)) (pre : String) :
    Except EncErr (List (String × String)) :=
  encodeStructGo fields args pre []

/-! ### `_parse_csv_list_safely` (`base.py` lines 885-911)

The command-line list parser: commas separate items, `\,` keeps a literal
comma inside an item.  Translated exactly, including the detail that the
`escaped` flag is only cleared by a comma (an escaped non-comma keeps the
flag set). -/

def parseCsvGo : List Char → String → Bool → List String
  | [], item, escaped =>
      let item := if escaped then item ++ "\\" else item
      if item ≠ "" then [item] else []
  | c :: rest, item, escaped =>
      if c = ',' then
        if escaped then parseCsvGo rest (item ++ ",") false
        else item :: parseCsvGo rest "" escaped
      else if c = '\\' then parseCsvGo rest item true
      else parseCsvGo rest (item ++ (if escaped then "\\" else "") ++ String.singleton c) escaped

def _parse_csv_list_safely (value : String) : List String :=
  parseCsvGo value.data "" false

/-! ## Validation of the crypto primitives against standard test vectors -/

set_option maxRecDepth 100000 in
/-- FIPS 180-2 test vector: `sha256("abc")`. -/
theorem sha256_abc_vector :
    sha256Digest [97, 98, 99] =
      [186, 120, 22, 191, 143, 1, 207, 234, 65, 65, 64, 222, 93, 174, 34, 35,
       176, 3, 97, 163, 150, 23, 122, 156, 180, 16, 255, 97, 242, 0, 21, 173] := by
  decide

set_option maxRecDepth 100000 in
/-- `base64(hmac_sha256("key", "message"))`, as Python's `hmac` and
`base64` compute it. -/
theorem hmac_b64_vector :
    b64encode (hmacSha256 (strBytes "key") (strBytes "message")) =
      "bp7ym3X//Ft6uuUn1Y/a2y/kLnIZARl2kXNDBl9Y7Uo=" := by
  decide

/-! ## Dictionary lemmas -/

theorem lookupD_dictInsert_self {α : Type} (d : List (String × α)) (k : String) (v : α) :
    lookupD (dictInsert d k v) k = some v := by
  induction d with
  | nil => simp [dictInsert, lookupD]
  | cons hd tl ih =>
      obtain ⟨k0, v0⟩ := hd
      by_cases h : k0 = k
      · simp [dictInsert, h, lookupD]
      · simp [dictInsert, h, lookupD, ih]

theorem lookupD_dictInsert_ne {α : Type} (d : List (String × α)) (k k' : String) (v : α)
    (h : k ≠ k') : lookupD (dictInsert d k v) k' = lookupD d k' := by
  induction d with
  | nil => simp [dictInsert, lookupD, h]
  | cons hd tl ih =>
      obtain ⟨k0, v0⟩ := hd
      by_cases h0 : k0 = k
      · subst h0
        simp [dictInsert, lookupD, h]
      · simp [dictInsert, h0, lookupD, ih]

theorem lookupD_eq_none_iff {α : Type} (d : List (String × α)) (k : String) :
    lookupD d k = none ↔ k ∉ d.map Prod.fst := by
  induction d with
  | nil => simp [lookupD]
  | cons hd tl ih =>
      obtain ⟨k0, v0⟩ := hd
      simp only [List.map_cons, List.mem_cons, not_or]
      by_cases h : k0 = k
      · subst h
        simp [lookupD]
      · simp only [lookupD, if_neg h]
        rw [ih]
        constructor
        · intro hn; exact ⟨fun hh => h hh.symm, hn⟩
        · intro hn; exact hn.2

theorem lookupD_dictRemove_ne {α : Type} (d : List (String × α)) (k k' : String)
    (h : k' ≠ k) : lookupD (dictRemove d k) k' = lookupD d k' := by
  induction d with
  | nil => simp [dictRemove]
  | cons hd tl ih =>
      obtain ⟨k0, v0⟩ := hd
      by_cases h0 : k0 = k
      · subst h0
        have h1 : dictRemove ((k0, v0) :: tl) k0 = tl := by simp [dictRemove]
        have h2 : lookupD ((k0, v0) :: tl) k' = lookupD tl k' := by
          simp only [lookupD]
          rw [if_neg (fun hh : k0 = k' => h hh.symm)]
        rw [h1, h2]
      · simp only [dictRemove, if_neg h0, lookupD]
        by_cases h1 : k0 = k'
        · rw [if_pos h1, if_pos h1]
        · rw [if_neg h1, if_neg h1, ih]

theorem lookupD_dictRemove_self {α : Type} (d : List (String × α)) (k : String)
    (h : (d.map Prod.fst).Nodup) : lookupD (dictRemove d k) k = none := by
  induction d with
  | nil => simp [dictRemove, lookupD]
  | cons hd tl ih =>
      obtain ⟨k0, v0⟩ := hd
      simp only [List.map_cons, List.nodup_cons] at h
      by_cases h0 : k0 = k
      · subst h0
        simp only [dictRemove, if_pos rfl]
        exact (lookupD_eq_none_iff tl k0).mpr h.1
      · simp [dictRemove, h0, lookupD, ih h.2]

theorem dictRemove_keys_subset {α : Type} (d : List (String × α)) (k : String) :
    ((dictRemove d k).map Prod.fst).Sublist (d.map Prod.fst) := by
  induction d with
  | nil => simp [dictRemove]
  | cons hd tl ih =>
      obtain ⟨k0, v0⟩ := hd
      by_cases h0 : k0 = k
      · simp only [dictRemove, if_pos h0, List.map_cons]
        exact (List.sublist_cons_self _ _)
      · simp only [dictRemove, if_neg h0, List.map_cons]
        exact ih.cons₂ k0

theorem dictRemove_keys_nodup {α : Type} (d : List (String × α)) (k : String)
    (h : (d.map Prod.fst).Nodup) : ((dictRemove d k).map Prod.fst).Nodup :=
  (dictRemove_keys_subset d k).nodup h

theorem dictRemove_eq_filter {α : Type} (d : List (String × α)) (k : String)
    (h : (d.map Prod.fst).Nodup) :
    dictRemove d k = d.filter fun kv => !(kv.1 == k) := by
  induction d with
  | nil => simp [dictRemove]
  | cons hd tl ih =>
      obtain ⟨k0, v0⟩ := hd
      simp only [List.map_cons, List.nodup_cons] at h
      by_cases h0 : k0 = k
      · subst h0
        simp only [dictRemove, if_pos rfl, List.filter_cons]
        have : ∀ kv ∈ tl, (!(kv.1 == k0)) = true := by
          intro kv hkv
          have : kv.1 ≠ k0 := by
            intro hh
            exact h.1 (hh ▸ List.mem_map_of_mem Prod.fst hkv)
          simp [this]
        simp [List.filter_eq_self.mpr this]
      · simp [dictRemove, h0, List.filter_cons, ih h.2, h0]

/-! ## Claim C9 — `run_query` mutates the caller's `params` dict -/

/-- C9: after `run_query`'s parameter merge (which happens before the URI is
parsed, the request signed or anything fetched — so it is observable whether
the call returns or raises), the caller-supplied `params` dict contains the
six signing entries. -/
theorem run_query_mutates_params (params : List (String × String))
    (accessKey action timestamp version : String) :
    lookupD (runQueryParamsAfter params accessKey action timestamp version)
        "access_key_id" = some accessKey ∧
    lookupD (runQueryParamsAfter params accessKey action timestamp version)
        "action" = some action ∧
    lookupD (runQueryParamsAfter params accessKey action timestamp version)
        "signature_version" = some "2" ∧
    lookupD (runQueryParamsAfter params accessKey action timestamp version)
        "signature_method" = some "HmacSHA256" ∧
    lookupD (runQueryParamsAfter params accessKey action timestamp version)
        "timestamp" = some timestamp ∧
    lookupD (runQueryParamsAfter params accessKey action timestamp version)
        "version" = some version := by
  simp only [runQueryParamsAfter, dictUpdate, List.foldl]
  refine ⟨?_, ?_, ?_, ?_, ?_, ?_⟩
  · rw [lookupD_dictInsert_ne _ _ _ _ (show "version" ≠ "access_key_id" by decide),
      lookupD_dictInsert_ne _ _ _ _ (show "timestamp" ≠ "access_key_id" by decide),
      lookupD_dictInsert_ne _ _ _ _ (show "signature_method" ≠ "access_key_id" by decide),
      lookupD_dictInsert_ne _ _ _ _ (show "signature_version" ≠ "access_key_id" by decide),
      lookupD_dictInsert_ne _ _ _ _ (show "action" ≠ "access_key_id" by decide),
      lookupD_dictInsert_self]
  · rw [lookupD_dictInsert_ne _ _ _ _ (show "version" ≠ "action" by decide),
      lookupD_dictInsert_ne _ _ _ _ (show "timestamp" ≠ "action" by decide),
      lookupD_dictInsert_ne _ _ _ _ (show "signature_method" ≠ "action" by decide),
      lookupD_dictInsert_ne _ _ _ _ (show "signature_version" ≠ "action" by decide),
      lookupD_dictInsert_self]
  · rw [lookupD_dictInsert_ne _ _ _ _ (show "version" ≠ "signature_version" by decide),
      lookupD_dictInsert_ne _ _ _ _ (show "timestamp" ≠ "signature_version" by decide),
      lookupD_dictInsert_ne _ _ _ _ (show "signature_method" ≠ "signature_version" by decide),
      lookupD_dictInsert_self]
  · rw [lookupD_dictInsert_ne _ _ _ _ (show "version" ≠ "signature_method" by decide),
      lookupD_dictInsert_ne _ _ _ _ (show "timestamp" ≠ "signature_method" by decide),
      lookupD_dictInsert_self]
  · rw [lookupD_dictInsert_ne _ _ _ _ (show "version" ≠ "timestamp" by decide),
      lookupD_dictInsert_self]
  · rw [lookupD_dictInsert_self]

/-! ## Claim C6 — local method name derivation -/

/-- C6: `_lowercase_api_name` inserts `_` at lowercase/digit-to-uppercase
boundaries and before an uppercase run followed by a lowercase-starting
word, then lowercases: `GetComputers ↦ get_computers`,
`ImportGPGKey ↦ import_gpg_key`, `CSVExport ↦ csv_export`. -/
theorem lowercase_api_name_spec :
    _lowercase_api_name "GetComputers" = "get_computers" ∧
    _lowercase_api_name "ImportGPGKey" = "import_gpg_key" ∧
    _lowercase_api_name "CSVExport" = "csv_export" := by
  refine ⟨by decide, by decide, by decide⟩

/-! ## Claim C7 — `_encode_unicode` on non-date values -/

/-- C7: the date/datetime redirect of `_encode_unicode` works, but the
"cast to a string" the spec promises for every other value does not exist
in the code: `str(value, "utf-8")` decodes a `bytes` argument and raises
`TypeError` for a plain `str` (or any other non-bytes value), so a
unicode-typed parameter given an ordinary string crashes. -/
theorem encode_unicode_str_raises :
    _encode_argument (.mk "unicode" false .pyNone none) "material"
        (.str "key data") = .error (.typeError "decoding str is not supported") ∧
    _encode_argument (.mk "unicode_line" false .pyNone none) "t"
        (.str "x") = .error (.typeError "decoding str is not supported") ∧
    _encode_argument (.mk "unicode" false .pyNone none) "d"
        (.date "2020-01-02T03:04:05Z") = .ok [("d", "2020-01-02T03:04:05Z")] ∧
    _encode_argument (.mk "unicode" false .pyNone none) "b"
        (.bytes "payload") = .ok [("b", "payload")] := by
  exact ⟨rfl, rfl, rfl, rfl⟩

/-! ## Claim C3 — optional parameters equal to their default are omitted -/

/-- A boolean optional parameter whose declared default is `false`. -/
def boolFalseParam : Param := .mk "boolean" true (.bool false) none

/-- C3: an optional parameter whose supplied value `==` its declared default
encodes to no wire key at all, and this includes falsy defaults: the boolean
optional parameter with default `false` passed as `false` is omitted, passed
as `true` it is emitted as `"true"`. -/
theorem encode_argument_default_omitted (p : Param) (name : String) (value : Value)
    (hopt : p.optional = true) (heq : pyEq value p.dflt = true) :
    _encode_argument p name value = .ok [] ∧
    _encode_argument boolFalseParam "safe_mode" (.bool false) = .ok [] ∧
    _encode_argument boolFalseParam "safe_mode" (.bool true) =
      .ok [("safe_mode", "true")] := by
  refine ⟨?_, rfl, rfl⟩
  obtain ⟨t, o, d, i⟩ := p
  simp only [Param.optional] at hopt
  simp only [Param.dflt] at heq
  subst hopt
  unfold _encode_argument
  rw [heq]
  simp

/-- Witness for C3 at the boolean parameter itself. -/
theorem encode_argument_default_omitted_witness :
    (boolFalseParam.optional = true ∧
      pyEq (.bool false) boolFalseParam.dflt = true) ∧
    (_encode_argument boolFalseParam "safe_mode" (.bool false) = .ok [] ∧
      _encode_argument boolFalseParam "safe_mode" (.bool false) = .ok [] ∧
      _encode_argument boolFalseParam "safe_mode" (.bool true) =
        .ok [("safe_mode", "true")]) :=
  ⟨⟨rfl, rfl⟩,
    encode_argument_default_omitted boolFalseParam "safe_mode" (.bool false) rfl rfl⟩

/-! ## Claim C5 — list parameters supplied as strings -/

/-- A list parameter of raw strings, as used by the C5 statements. -/
def rawListParam : Param := .mk "list" false .pyNone (some (.mk "raw_string" false .pyNone none))

/-- The `.ok` payload of an encoding, for stating value facts without
comparing error payloads. -/
def okPairs : Except EncErr (List (String × String)) → Option (List (String × String))
  | .ok r => some r
  | .error _ => none

/-- C5 counterexample: the encoder splits a string list on **every** comma
(`sequence.split(",")` — no escape handling), so `"a,b\,c"` encodes to the
three items `a`, `b\`, `c`, not to the two items `a`, `b,c` the claim
asserts.  The unescaped-comma treatment lives in `_parse_csv_list_safely`,
which only the command line's `parse_list` uses. -/
theorem encode_list_escaped_comma_counterexample :
    okPairs (_encode_argument rawListParam "x" (.str "a,b\\,c")) =
      some [("x.1", "a"), ("x.2", "b\\"), ("x.3", "c")] ∧
    okPairs (_encode_argument rawListParam "x" (.str "a,b\\,c")) ≠
      some [("x.1", "a"), ("x.2", "b,c")] := by
  refine ⟨rfl, by decide⟩

/-- C5 (amended): a list parameter supplied as a string is encoded exactly
like the native list of its comma-split, whitespace-trimmed pieces — every
comma splits, escapes are not interpreted — with one sub-field per element
at the 1-based key `name.i`; the unescaped-comma splitting (where `\,` stays
a literal comma) belongs to the command-line parser `_parse_csv_list_safely`,
which maps `"a,b\,c"` to `["a", "b,c"]`. -/
theorem encode_list_string_split (dflt : Value) (ip : Param) (name s : String) :
    _encode_argument (.mk "list" false dflt (some ip)) name (.str s) =
      _encode_argument (.mk "list" false dflt (some ip)) name
        (.list ((pySplitOn ',' s).map fun x => Value.str (pyStrip x))) ∧
    _encode_argument rawListParam "x" (.list [.str "a", .str "b,c"]) =
      .ok [("x.1", "a"), ("x.2", "b,c")] ∧
    _parse_csv_list_safely "a,b\\,c" = ["a", "b,c"] := by
  exact ⟨rfl, rfl, rfl⟩

/-! ## Claim C8 — signing is deterministic, timestamp read once -/

/-- C8: with the time source explicit, the signing step reads it exactly
once (the returned read count is 1), and two runs whose clocks agree on that
single reading — and agree on every other input — produce identical signed
query strings. -/
theorem signing_deterministic (clock clock' : Nat → String)
    (accessKey secretKey action : String) (params : List (String × String))
    (uri version : String) (h : clock 0 = clock' 0) :
    runQuerySignClock clock accessKey secretKey action params uri version =
      runQuerySignClock clock' accessKey secretKey action params uri version ∧
    (runQuerySignClock clock accessKey secretKey action params uri version).2 = 1 := by
  constructor
  · simp only [runQuerySignClock]
    rw [h]
  · rfl

/-- Witness for C8 at two extensionally different clocks that agree at
reading 0. -/
theorem signing_deterministic_witness :
    ((fun _ : Nat => "2011-08-01T00:00:00Z") 0 =
      (fun n : Nat => if n = 0 then "2011-08-01T00:00:00Z" else "later") 0) ∧
    (runQuerySignClock (fun _ => "2011-08-01T00:00:00Z") "ak" "sk" "GetComputers"
        [] "https://landscape.canonical.com/api/" "2011-08-01" =
      runQuerySignClock (fun n => if n = 0 then "2011-08-01T00:00:00Z" else "later")
        "ak" "sk" "GetComputers" [] "https://landscape.canonical.com/api/" "2011-08-01" ∧
      (runQuerySignClock (fun _ => "2011-08-01T00:00:00Z") "ak" "sk" "GetComputers"
        [] "https://landscape.canonical.com/api/" "2011-08-01").2 = 1) :=
  ⟨rfl,
    signing_deterministic (fun _ => "2011-08-01T00:00:00Z")
      (fun n => if n = 0 then "2011-08-01T00:00:00Z" else "later")
      "ak" "sk" "GetComputers" [] "https://landscape.canonical.com/api/"
      "2011-08-01" rfl⟩

/-! ## Claim C4 — the error taxonomy -/

theorem startsWithCh_append_self (p t : List Char) : startsWithCh p (p ++ t) = true := by
  induction p with
  | nil => rfl
  | cons a as ih => simp [startsWithCh, ih]

theorem getErrorCodeName_idem (code : String) :
    _get_error_code_name (_get_error_code_name code) = _get_error_code_name code := by
  unfold _get_error_code_name
  by_cases h : pyEndsWith code "Error" = true
  · rw [if_pos h, if_pos h]
  · rw [if_neg h]
    have hends : pyEndsWith (code ++ "Error") "Error" = true := by
      unfold pyEndsWith
      rw [String.data_append, List.reverse_append]
      exact startsWithCh_append_self _ _
    rw [if_pos hends]

theorem dictInsert_keys_absent {α : Type} (d : List (String × α)) (k : String) (v : α)
    (h : lookupD d k = none) :
    (dictInsert d k v).map Prod.fst = d.map Prod.fst ++ [k] := by
  induction d with
  | nil => simp [dictInsert]
  | cons hd tl ih =>
      obtain ⟨k0, v0⟩ := hd
      simp only [lookupD] at h
      by_cases h0 : k0 = k
      · rw [if_pos h0] at h
        exact absurd h (by simp)
      · rw [if_neg h0] at h
        simp [dictInsert, h0, ih h]

theorem buildExceptionsGo_keeps (codes : List String) (errors : List (String × Nat))
    (counter : Nat) (name : String) (k : Nat) (h : lookup_error errors name = some k) :
    lookup_error (buildExceptionsGo codes errors counter) name = some k := by
  induction codes generalizing errors counter with
  | nil => exact h
  | cons c rest ih =>
      simp only [buildExceptionsGo]
      by_cases hs : (lookup_error errors (_get_error_code_name c)).isSome
      · rw [if_pos hs]
        exact ih _ _ h
      · rw [if_neg hs]
        apply ih
        have hne : _get_error_code_name c ≠ name := by
          intro hh
          rw [hh] at hs
          exact hs (by rw [h]; rfl)
        unfold lookup_error add_error
        rw [lookupD_dictInsert_ne _ _ _ _ hne]
        exact h

theorem buildExceptionsGo_registers (codes : List String) (errors : List (String × Nat))
    (counter : Nat) (code : String) (h : code ∈ codes) :
    ∃ k, lookup_error (buildExceptionsGo codes errors counter)
        (_get_error_code_name code) = some k := by
  induction codes generalizing errors counter with
  | nil => cases h
  | cons c rest ih =>
      simp only [buildExceptionsGo]
      rcases List.mem_cons.mp h with hc | hc
      · subst hc
        by_cases hs : (lookup_error errors (_get_error_code_name code)).isSome
        · rw [if_pos hs]
          obtain ⟨k, hk⟩ := Option.isSome_iff_exists.mp hs
          exact ⟨k, buildExceptionsGo_keeps _ _ _ _ _ hk⟩
        · rw [if_neg hs]
          refine ⟨counter, buildExceptionsGo_keeps _ _ _ _ _ ?_⟩
          unfold lookup_error add_error
          exact lookupD_dictInsert_self _ _ _
      · by_cases hs : (lookup_error errors (_get_error_code_name c)).isSome
        · rw [if_pos hs]; exact ih _ _ hc
        · rw [if_neg hs]; exact ih _ _ hc

theorem buildExceptionsGo_nodup (codes : List String) (errors : List (String × Nat))
    (counter : Nat) (h : (errors.map Prod.fst).Nodup) :
    ((buildExceptionsGo codes errors counter).map Prod.fst).Nodup := by
  induction codes generalizing errors counter with
  | nil => exact h
  | cons c rest ih =>
      simp only [buildExceptionsGo]
      by_cases hs : (lookup_error errors (_get_error_code_name c)).isSome
      · rw [if_pos hs]; exact ih _ _ h
      · rw [if_neg hs]
        apply ih
        have hnone : lookupD errors (_get_error_code_name c) = none := by
          cases hh : lookupD errors (_get_error_code_name c)
          · rfl
          · exact absurd (by simp [lookup_error, hh]) hs
        unfold add_error
        rw [dictInsert_keys_absent _ _ _ hnone]
        have hmem : _get_error_code_name c ∉ errors.map Prod.fst :=
          (lookupD_eq_none_iff _ _).mp hnone
        simp [List.nodup_append, h, hmem]

/-- C4: every error code declared anywhere in the schema ends up registered
under its name normalized to end in `"Error"`; the registry's keys are
distinct (one kind per normalized code); a name already registered is never
overwritten by a later registration (first wins, so re-registration is a
no-op); and the normalize-then-look-up resolution used on wire error codes
gives the same kind for the raw code and for its normalized form. -/
theorem build_exceptions_registry (schema : List (String × List (String × List String)))
    (code : String) (h : code ∈ schemaErrorCodes schema) :
    (∃ k, lookup_error (_build_exceptions schema) (_get_error_code_name code) = some k ∧
        resolveErrorCode (_build_exceptions schema) code = some k ∧
        resolveErrorCode (_build_exceptions schema) (_get_error_code_name code) = some k) ∧
    ((_build_exceptions schema).map Prod.fst).Nodup ∧
    (∀ codes errors counter name k, lookup_error errors name = some k →
        lookup_error (buildExceptionsGo codes errors counter) name = some k) := by
  refine ⟨?_, ?_, fun codes errors counter name k hk =>
    buildExceptionsGo_keeps codes errors counter name k hk⟩
  · obtain ⟨k, hk⟩ := buildExceptionsGo_registers (schemaErrorCodes schema) [] 0 code h
    refine ⟨k, hk, hk, ?_⟩
    unfold resolveErrorCode
    rw [getErrorCodeName_idem]
    exact hk
  · exact buildExceptionsGo_nodup _ _ _ (by simp)

/-- Witness for C4: a schema declaring `UnknownComputer` (an action with one
version handler) registers `UnknownComputerError`, resolvable from both
spellings. -/
theorem build_exceptions_registry_witness :
    ("UnknownComputer" ∈
      schemaErrorCodes [("GetComputers", [("2011-08-01", ["UnknownComputer"])])]) ∧
    ((∃ k, lookup_error
          (_build_exceptions [("GetComputers", [("2011-08-01", ["UnknownComputer"])])])
          (_get_error_code_name "UnknownComputer") = some k ∧
        resolveErrorCode
          (_build_exceptions [("GetComputers", [("2011-08-01", ["UnknownComputer"])])])
          "UnknownComputer" = some k ∧
        resolveErrorCode
          (_build_exceptions [("GetComputers", [("2011-08-01", ["UnknownComputer"])])])
          (_get_error_code_name "UnknownComputer") = some k) ∧
      ((_build_exceptions
          [("GetComputers", [("2011-08-01", ["UnknownComputer"])])]).map Prod.fst).Nodup ∧
      (∀ codes errors counter name k, lookup_error errors name = some k →
          lookup_error (buildExceptionsGo codes errors counter) name = some k)) :=
  ⟨by decide,
    build_exceptions_registry [("GetComputers", [("2011-08-01", ["UnknownComputer"])])]
      "UnknownComputer" (by decide)⟩

/-! ## Claim C2 — missing and extra argument errors -/

/-- The caller-supplied arguments left over once every declared field has
been processed: those whose key is not a declared field name (a present
field's argument is popped when the field is processed). -/
def leftoverArgs (fields : List (String × Param)) (args : List (String × Value)) :
    List (String × Value) :=
  args.filter fun kv => !decide (kv.1 ∈ fields.map Prod.fst)

theorem leftoverArgs_nil (args : List (String × Value)) :
    leftoverArgs [] args = args := by
  unfold leftoverArgs
  apply List.filter_eq_self.mpr
  intro kv _
  simp

theorem leftoverArgs_cons_absent (n : String) (p : Param)
    (fs : List (String × Param)) (args : List (String × Value))
    (h : lookupD args n = none) :
    leftoverArgs ((n, p) :: fs) args = leftoverArgs fs args := by
  unfold leftoverArgs
  apply List.filter_congr
  intro kv hkv
  have hne : kv.1 ≠ n := by
    intro hh
    have : n ∈ args.map Prod.fst := hh ▸ List.mem_map_of_mem Prod.fst hkv
    exact (lookupD_eq_none_iff args n).mp h this
  simp [List.mem_cons, hne]

theorem leftoverArgs_cons_present (n : String) (p : Param)
    (fs : List (String × Param)) (args : List (String × Value))
    (han : (args.map Prod.fst).Nodup) :
    leftoverArgs ((n, p) :: fs) args = leftoverArgs fs (dictRemove args n) := by
  unfold leftoverArgs
  rw [dictRemove_eq_filter args n han, List.filter_filter]
  apply List.filter_congr
  intro kv _
  by_cases hh : kv.1 = n
  · simp [hh]
  · simp [hh, List.mem_cons, Bool.and_comm]

/-- Unfolding lemma: one step of `encodeStructGo` on a present field. -/
theorem encodeStructGo_cons_present (n : String) (p : Param)
    (fs : List (String × Param)) (args : List (String × Value)) (pre : String)
    (acc r₀ : List (String × String)) (v : Value)
    (hl : lookupD args n = some v)
    (he : _encode_argument p (pre ++ n) v = .ok r₀) :
    encodeStructGo ((n, p) :: fs) args pre acc =
      encodeStructGo fs (dictRemove args n) pre (dictUpdate acc r₀) := by
  simp only [encodeStructGo, hl, he]

theorem encodeStructGo_missing :
    ∀ (fields : List (String × Param)) (args : List (String × Value))
      (pre : String) (acc : List (String × String)),
      (fields.map Prod.fst).Nodup → (args.map Prod.fst).Nodup →
      (∀ n p v, (n, p) ∈ fields → lookupD args n = some v →
         ∃ r, _encode_argument p (pre ++ n) v = .ok r) →
      (∃ n p, (n, p) ∈ fields ∧ p.optional = false ∧ lookupD args n = none) →
      ∃ m pm, (m, pm) ∈ fields ∧ pm.optional = false ∧ lookupD args m = none ∧
        encodeStructGo fields args pre acc = .error (.missingParameter m)
  | [], _, _, _, _, _, _, hmiss => by
      obtain ⟨n, p, hm, _⟩ := hmiss
      cases hm
  | (n, p) :: fs, args, pre, acc, hfn, han, hok, hmiss => by
      cases hl : lookupD args n with
      | none =>
          cases hp : p.optional with
          | false =>
              exact ⟨n, p, List.mem_cons_self _ _, hp, hl, by
                simp only [encodeStructGo, hl, hp, Bool.false_eq_true, if_false]⟩
          | true =>
              have hmiss' : ∃ n₀ p₀, (n₀, p₀) ∈ fs ∧ p₀.optional = false ∧
                  lookupD args n₀ = none := by
                obtain ⟨n₀, p₀, hm, ho, hlk⟩ := hmiss
                rcases List.mem_cons.mp hm with heq | hmem
                · obtain ⟨rfl, rfl⟩ := Prod.mk.injEq .. ▸ And.intro
                    (congrArg Prod.fst heq) (congrArg Prod.snd heq)
                  exact absurd hp (ho ▸ Bool.false_ne_true)
                · exact ⟨n₀, p₀, hmem, ho, hlk⟩
              obtain ⟨m, pm, hmem, ho, hlk, hres⟩ :=
                encodeStructGo_missing fs args pre acc
                  (List.nodup_cons.mp (by simpa only [List.map_cons] using hfn)).2 han
                  (fun n' p' v' hm' hl' => hok n' p' v' (List.mem_cons_of_mem _ hm') hl')
                  hmiss'
              exact ⟨m, pm, List.mem_cons_of_mem _ hmem, ho, hlk, by
                simp only [encodeStructGo, hl, hp, if_true]
                exact hres⟩
      | some v =>
          obtain ⟨r₀, he⟩ := hok n p v (List.mem_cons_self _ _) hl
          have hnmem : n ∉ fs.map Prod.fst := (List.nodup_cons.mp (by simpa only [List.map_cons] using hfn)).1
          have hmiss' : ∃ n₀ p₀, (n₀, p₀) ∈ fs ∧ p₀.optional = false ∧
              lookupD (dictRemove args n) n₀ = none := by
            obtain ⟨n₀, p₀, hm, ho, hlk⟩ := hmiss
            rcases List.mem_cons.mp hm with heq | hmem
            · have : n₀ = n := congrArg Prod.fst heq
              rw [this, hl] at hlk
              cases hlk
            · have hne : n₀ ≠ n := by
                intro hh
                exact hnmem (hh ▸ List.mem_map_of_mem Prod.fst hmem)
              exact ⟨n₀, p₀, hmem, ho, by rw [lookupD_dictRemove_ne _ _ _ hne]; exact hlk⟩
          obtain ⟨m, pm, hmem, ho, hlk, hres⟩ :=
            encodeStructGo_missing fs (dictRemove args n) pre (dictUpdate acc r₀)
              (List.nodup_cons.mp (by simpa only [List.map_cons] using hfn)).2
              (dictRemove_keys_nodup args n han)
              (fun n' p' v' hm' hl' => by
                have hne : n' ≠ n := by
                  intro hh
                  rw [hh, lookupD_dictRemove_self args n han] at hl'
                  cases hl'
                rw [lookupD_dictRemove_ne _ _ _ hne] at hl'
                exact hok n' p' v' (List.mem_cons_of_mem _ hm') hl')
              hmiss'
          have hne : m ≠ n := by
            intro hh
            exact hnmem (hh ▸ List.mem_map_of_mem Prod.fst hmem)
          refine ⟨m, pm, List.mem_cons_of_mem _ hmem, ho, ?_, ?_⟩
          · rw [← lookupD_dictRemove_ne args n m hne]
            exact hlk
          · rw [encodeStructGo_cons_present n p fs args pre acc r₀ v hl he]
            exact hres

theorem encodeStructGo_complete :
    ∀ (fields : List (String × Param)) (args : List (String × Value))
      (pre : String) (acc : List (String × String)),
      (fields.map Prod.fst).Nodup → (args.map Prod.fst).Nodup →
      (∀ n p v, (n, p) ∈ fields → lookupD args n = some v →
         ∃ r, _encode_argument p (pre ++ n) v = .ok r) →
      (∀ n p, (n, p) ∈ fields → p.optional = false → (lookupD args n).isSome) →
      (leftoverArgs fields args = [] →
         ∃ r, encodeStructGo fields args pre acc = .ok r) ∧
      (leftoverArgs fields args ≠ [] →
         encodeStructGo fields args pre acc =
           .error (.extraArguments (leftoverArgs fields args)))
  | [], args, pre, acc, _, _, _, _ => by
      rw [leftoverArgs_nil]
      cases args with
      | nil => exact ⟨fun _ => ⟨acc, rfl⟩, fun hne => absurd rfl hne⟩
      | cons a as =>
          refine ⟨fun h => absurd h (by simp), fun _ => ?_⟩
          simp [encodeStructGo]
  | (n, p) :: fs, args, pre, acc, hfn, han, hok, hall => by
      have hfn' := (List.nodup_cons.mp (by simpa only [List.map_cons] using hfn)).2
      cases hl : lookupD args n with
      | none =>
          have hp : p.optional = true := by
            cases hp : p.optional with
            | true => rfl
            | false =>
                have := hall n p (List.mem_cons_self _ _) hp
                rw [hl] at this
                cases this
          rw [leftoverArgs_cons_absent n p fs args hl]
          have step : encodeStructGo ((n, p) :: fs) args pre acc =
              encodeStructGo fs args pre acc := by
            simp only [encodeStructGo, hl, hp, if_true]
          rw [step]
          exact encodeStructGo_complete fs args pre acc hfn' han
            (fun n' p' v' hm' hl' => hok n' p' v' (List.mem_cons_of_mem _ hm') hl')
            (fun n' p' hm' ho' => hall n' p' (List.mem_cons_of_mem _ hm') ho')
      | some v =>
          obtain ⟨r₀, he⟩ := hok n p v (List.mem_cons_self _ _) hl
          have hnmem : n ∉ fs.map Prod.fst := (List.nodup_cons.mp (by simpa only [List.map_cons] using hfn)).1
          rw [leftoverArgs_cons_present n p fs args han,
            encodeStructGo_cons_present n p fs args pre acc r₀ v hl he]
          exact encodeStructGo_complete fs (dictRemove args n) pre (dictUpdate acc r₀)
            hfn' (dictRemove_keys_nodup args n han)
            (fun n' p' v' hm' hl' => by
              have hne : n' ≠ n := by
                intro hh
                rw [hh, lookupD_dictRemove_self args n han] at hl'
                cases hl'
              rw [lookupD_dictRemove_ne _ _ _ hne] at hl'
              exact hok n' p' v' (List.mem_cons_of_mem _ hm') hl')
            (fun n' p' hm' ho' => by
              have hne : n' ≠ n := by
                intro hh
                exact hnmem (hh ▸ List.mem_map_of_mem Prod.fst hm')
              rw [lookupD_dictRemove_ne _ _ _ hne]
              exact hall n' p' (List.mem_cons_of_mem _ hm') ho')

theorem encodeStructGo_all_optional (fields : List (String × Param)) (pre : String)
    (acc : List (String × String))
    (h : ∀ n p, (n, p) ∈ fields → p.optional = true) :
    encodeStructGo fields [] pre acc = .ok acc := by
  induction fields with
  | nil => rfl
  | cons hd fs ih =>
      obtain ⟨n, p⟩ := hd
      have hp : p.optional = true := h n p (List.mem_cons_self _ _)
      have : lookupD ([] : List (String × Value)) n = none := rfl
      simp only [encodeStructGo, this, hp, if_true]
      exact ih fun n' p' hm' => h n' p' (List.mem_cons_of_mem _ hm')

/-- C2: over declared fields with distinct names and a caller argument dict
(distinct keys) on which every present field encodes successfully — (1) if
some required field has no argument, encoding fails with the
`Missing parameter` `TypeError`, naming a required absent field; (2) if every
required field is supplied, encoding fails with the `Extra arguments`
`TypeError` echoing exactly the unconsumed arguments whenever any are left
after all declared fields are processed, and succeeds when none are; (3) a
field set of only optional parameters given no arguments encodes to an empty
request — optional missing parameters emit no key. -/
theorem encode_struct_fields_errors (fields : List (String × Param))
    (args : List (String × Value)) (pre : String)
    (hfn : (fields.map Prod.fst).Nodup) (han : (args.map Prod.fst).Nodup)
    (hok : ∀ n p v, (n, p) ∈ fields → lookupD args n = some v →
       ∃ r, _encode_argument p (pre ++ n) v = .ok r) :
    ((∃ n p, (n, p) ∈ fields ∧ p.optional = false ∧ lookupD args n = none) →
       ∃ m pm, (m, pm) ∈ fields ∧ pm.optional = false ∧ lookupD args m = none ∧
         _encode_struct_fields fields args pre = .error (.missingParameter m)) ∧
    ((∀ n p, (n, p) ∈ fields → p.optional = false → (lookupD args n).isSome) →
       (leftoverArgs fields args ≠ [] →
          _encode_struct_fields fields args pre =
            .error (.extraArguments (leftoverArgs fields args))) ∧
       (leftoverArgs fields args = [] →
          ∃ r, _encode_struct_fields fields args pre = .ok r)) ∧
    (args = [] → (∀ n p, (n, p) ∈ fields → p.optional = true) →
       _encode_struct_fields fields args pre = .ok []) := by
  refine ⟨?_, ?_, ?_⟩
  · exact fun hmiss => encodeStructGo_missing fields args pre [] hfn han hok hmiss
  · intro hall
    obtain ⟨hempty, hextra⟩ :=
      encodeStructGo_complete fields args pre [] hfn han hok hall
    exact ⟨hextra, hempty⟩
  · intro hargs hopt
    subst hargs
    exact encodeStructGo_all_optional fields pre [] hopt

/-- Witness for C2: one required integer field and no arguments — encoding
fails with `Missing parameter a`. -/
theorem encode_struct_fields_errors_witness :
    (([("a", Param.mk "integer" false .pyNone none)].map
        (Prod.fst (α := String) (β := Param))).Nodup ∧
      (([] : List (String × Value)).map Prod.fst).Nodup) ∧
    (((∃ n p, (n, p) ∈ [("a", Param.mk "integer" false .pyNone none)] ∧
          p.optional = false ∧ lookupD ([] : List (String × Value)) n = none) →
        ∃ m pm, (m, pm) ∈ [("a", Param.mk "integer" false .pyNone none)] ∧
          pm.optional = false ∧ lookupD ([] : List (String × Value)) m = none ∧
          _encode_struct_fields [("a", Param.mk "integer" false .pyNone none)] [] "" =
            .error (.missingParameter m)) ∧
      ((∀ n p, (n, p) ∈ [("a", Param.mk "integer" false .pyNone none)] →
          p.optional = false → (lookupD ([] : List (String × Value)) n).isSome) →
        (leftoverArgs [("a", Param.mk "integer" false .pyNone none)] [] ≠ [] →
           _encode_struct_fields [("a", Param.mk "integer" false .pyNone none)] [] "" =
             .error (.extraArguments
               (leftoverArgs [("a", Param.mk "integer" false .pyNone none)] []))) ∧
        (leftoverArgs [("a", Param.mk "integer" false .pyNone none)] [] = [] →
           ∃ r, _encode_struct_fields
             [("a", Param.mk "integer" false .pyNone none)] [] "" = .ok r)) ∧
      (([] : List (String × Value)) = [] →
        (∀ n p, (n, p) ∈ [("a", Param.mk "integer" false .pyNone none)] →
           p.optional = true) →
        _encode_struct_fields [("a", Param.mk "integer" false .pyNone none)] [] "" =
          .ok [])) :=
  ⟨⟨by simp, by simp⟩,
    encode_struct_fields_errors [("a", Param.mk "integer" false .pyNone none)] [] ""
      (by simp) (by simp)
      (fun n p v _ hl => by simp [lookupD] at hl)⟩

/-! ## Claim C1 — the canonical parameter string and the string to sign

The order lemmas below establish that `pairLt` (Python `<` on string pairs)
is a strict total order, that the fold of `insertSorted` performed inside
`run_query` is a sort for it, and hence that it coincides with Mathlib's
`List.insertionSort` of the corresponding non-strict order — the
explicitly-spec-side description of "sort the pairs". -/

theorem charListLt_irrefl : ∀ x, charListLt x x = false
  | [] => rfl
  | a :: as => by simp [charListLt, charListLt_irrefl as]

theorem charListLt_asymm : ∀ x y, charListLt x y = true → charListLt y x = false
  | [], [] => by simp [charListLt]
  | [], _ :: _ => fun _ => by simp [charListLt]
  | _ :: _, [] => by simp [charListLt]
  | a :: as, b :: bs => fun h => by
      simp only [charListLt] at h ⊢
      rcases Nat.lt_trichotomy a.toNat b.toNat with h1 | h1 | h1
      · rw [if_neg (by omega), if_pos h1]
      · rw [if_neg (by omega), if_neg (by omega)] at h
        rw [if_neg (by omega), if_neg (by omega)]
        exact charListLt_asymm as bs h
      · rw [if_neg (by omega), if_pos h1] at h
        cases h

theorem charListLt_conn : ∀ x y, charListLt x y = false → charListLt y x = false → x = y
  | [], [] => fun _ _ => rfl
  | [], _ :: _ => fun h _ => by simp [charListLt] at h
  | _ :: _, [] => fun _ h' => by simp [charListLt] at h'
  | a :: as, b :: bs => fun h h' => by
      simp only [charListLt] at h h'
      rcases Nat.lt_trichotomy a.toNat b.toNat with h1 | h1 | h1
      · rw [if_pos h1] at h
        cases h
      · rw [if_neg (by omega), if_neg (by omega)] at h
        rw [if_neg (by omega), if_neg (by omega)] at h'
        rw [Char.eq_of_val_eq (UInt32.toNat.inj h1), charListLt_conn as bs h h']
      · rw [if_pos h1] at h'
        cases h'

theorem charListLt_trans :
    ∀ x y z, charListLt x y = true → charListLt y z = true → charListLt x z = true
  | [], [], _ => fun h _ => by simp [charListLt] at h
  | [], _ :: _, [] => fun _ h' => by simp [charListLt] at h'
  | [], _ :: _, _ :: _ => fun _ _ => by simp [charListLt]
  | _ :: _, [], _ => fun h _ => by simp [charListLt] at h
  | _ :: _, _ :: _, [] => fun _ h' => by simp [charListLt] at h'
  | a :: as, b :: bs, c :: cs => fun h h' => by
      simp only [charListLt] at h h' ⊢
      by_cases hab : a.toNat < b.toNat <;> by_cases hbc : b.toNat < c.toNat
      · rw [if_pos (by omega)]
      · by_cases hcb : c.toNat < b.toNat
        · rw [if_neg hbc, if_pos hcb] at h'
          cases h'
        · rw [if_pos (by omega)]
      · by_cases hba : b.toNat < a.toNat
        · rw [if_neg hab, if_pos hba] at h
          cases h
        · rw [if_pos (by omega)]
      · by_cases hba : b.toNat < a.toNat
        · rw [if_neg hab, if_pos hba] at h
          cases h
        · by_cases hcb : c.toNat < b.toNat
          · rw [if_neg hbc, if_pos hcb] at h'
            cases h'
          · rw [if_neg hab, if_neg hba] at h
            rw [if_neg hbc, if_neg hcb] at h'
            rw [if_neg (by omega), if_neg (by omega)]
            exact charListLt_trans as bs cs h h'

theorem strLt_irrefl (s : String) : strLt s s = false := charListLt_irrefl s.data

theorem strLt_asymm (s t : String) (h : strLt s t = true) : strLt t s = false :=
  charListLt_asymm s.data t.data h

theorem strLt_conn (s t : String) (h : strLt s t = false) (h' : strLt t s = false) :
    s = t :=
  String.ext (charListLt_conn s.data t.data h h')

theorem strLt_trans (s t u : String) (h : strLt s t = true) (h' : strLt t u = true) :
    strLt s u = true :=
  charListLt_trans s.data t.data u.data h h'

theorem pairLt_asymm (a b : String × String) (h : pairLt a b = true) :
    pairLt b a = false := by
  unfold pairLt at h ⊢
  rcases (Bool.or_eq_true _ _).mp h with h1 | h1
  · have h2 : strLt b.1 a.1 = false := strLt_asymm _ _ h1
    have h3 : b.1 ≠ a.1 := by
      intro hh
      rw [hh] at h1
      rw [strLt_irrefl] at h1
      cases h1
    simp [h2, h3]
  · obtain ⟨he, h2⟩ := (Bool.and_eq_true _ _).mp h1
    have heq : a.1 = b.1 := of_decide_eq_true he
    have h3 : strLt b.2 a.2 = false := strLt_asymm _ _ h2
    rw [← heq, strLt_irrefl, h3]
    simp

theorem pairLt_conn (a b : String × String) (h : pairLt a b = false)
    (h' : pairLt b a = false) : a = b := by
  unfold pairLt at h h'
  obtain ⟨h1, h2⟩ := Bool.or_eq_false_iff.mp h
  obtain ⟨h3, h4⟩ := Bool.or_eq_false_iff.mp h'
  have heq1 : a.1 = b.1 := strLt_conn _ _ h1 h3
  rw [heq1] at h2
  rw [show decide (b.1 = b.1) = true by simp] at h2
  rw [show decide (b.1 = a.1) = true by simp [heq1]] at h4
  simp only [Bool.true_and] at h2 h4
  have heq2 : a.2 = b.2 := strLt_conn _ _ h2 h4
  exact Prod.ext heq1 heq2

theorem pairLt_trans (a b c : String × String) (h : pairLt a b = true)
    (h' : pairLt b c = true) : pairLt a c = true := by
  unfold pairLt at h h' ⊢
  rcases (Bool.or_eq_true _ _).mp h with h1 | h1 <;>
    rcases (Bool.or_eq_true _ _).mp h' with h2 | h2
  · rw [strLt_trans _ _ _ h1 h2]
    simp
  · obtain ⟨he, _⟩ := (Bool.and_eq_true _ _).mp h2
    have heq : b.1 = c.1 := of_decide_eq_true he
    rw [← heq, h1]
    simp
  · obtain ⟨he, _⟩ := (Bool.and_eq_true _ _).mp h1
    have heq : a.1 = b.1 := of_decide_eq_true he
    rw [heq, h2]
    simp
  · obtain ⟨he1, hs1⟩ := (Bool.and_eq_true _ _).mp h1
    obtain ⟨he2, hs2⟩ := (Bool.and_eq_true _ _).mp h2
    have heq1 : a.1 = b.1 := of_decide_eq_true he1
    have heq2 : b.1 = c.1 := of_decide_eq_true he2
    rw [heq1, heq2, strLt_trans _ _ _ hs1 hs2]
    simp

/-- The non-strict pair order: `a` may precede `b` in the sorted output. -/
def pairLeP (a b : String × String) : Prop := pairLt b a = false

instance : DecidableRel pairLeP := fun a b => by unfold pairLeP; infer_instance

instance : IsTotal (String × String) pairLeP :=
  ⟨fun a b => by
    unfold pairLeP
    cases h : pairLt b a
    · exact Or.inl rfl
    · exact Or.inr (pairLt_asymm b a h)⟩

instance : IsTrans (String × String) pairLeP :=
  ⟨fun a b c h1 h2 => by
    unfold pairLeP at h1 h2 ⊢
    cases h3 : pairLt c a
    · rfl
    · cases h4 : pairLt b c
      · have hbc : b = c := pairLt_conn b c h4 h2
        rw [hbc] at h1
        rw [h1] at h3
        cases h3
      · have := pairLt_trans b c a h4 h3
        rw [this] at h1
        cases h1⟩

instance : IsAntisymm (String × String) pairLeP :=
  ⟨fun a b h1 h2 => pairLt_conn a b h2 h1⟩

theorem insertSorted_perm (x : String × String) :
    ∀ l, List.Perm (insertSorted x l) (x :: l)
  | [] => List.Perm.refl _
  | y :: ys => by
      unfold insertSorted
      by_cases h : pairLt x y = true
      · rw [if_pos h]
      · rw [if_neg h]
        exact ((insertSorted_perm x ys).cons y).trans (List.Perm.swap x y ys)

theorem foldl_insertSorted_perm :
    ∀ (l acc : List (String × String)),
      List.Perm (l.foldl (fun acc x => insertSorted x acc) acc) (acc ++ l)
  | [], acc => by simp
  | x :: xs, acc => by
      simp only [List.foldl_cons]
      have h1 := foldl_insertSorted_perm xs (insertSorted x acc)
      have h2 := (insertSorted_perm x acc).append_right xs
      have h3 : List.Perm ((x :: acc) ++ xs) (acc ++ x :: xs) := List.perm_middle.symm
      exact (h1.trans h2).trans h3

theorem sortPairs_perm (l : List (String × String)) : List.Perm (sortPairs l) l := by
  have := foldl_insertSorted_perm l []
  simpa [sortPairs] using this

theorem insertSorted_sorted (x : String × String) :
    ∀ l, l.Sorted pairLeP → (insertSorted x l).Sorted pairLeP
  | [], _ => by simp [insertSorted]
  | y :: ys, h => by
      rw [List.sorted_cons] at h
      obtain ⟨hy, hys⟩ := h
      unfold insertSorted
      by_cases hlt : pairLt x y = true
      · rw [if_pos hlt, List.sorted_cons]
        refine ⟨?_, List.sorted_cons.mpr ⟨hy, hys⟩⟩
        intro b hb
        rcases List.mem_cons.mp hb with rfl | hb2
        · exact pairLt_asymm x b hlt
        · exact IsTrans.trans (r := pairLeP) x y b (pairLt_asymm x y hlt) (hy b hb2)
      · rw [if_neg hlt, List.sorted_cons]
        have hxy : pairLt x y = false := by
          cases hh : pairLt x y
          · rfl
          · exact absurd hh hlt
        constructor
        · intro b hb
          have hmem := (insertSorted_perm x ys).mem_iff.mp hb
          rcases List.mem_cons.mp hmem with rfl | hb2
          · exact hxy
          · exact hy b hb2
        · exact insertSorted_sorted x ys hys

theorem foldl_insertSorted_sorted :
    ∀ (l acc : List (String × String)), acc.Sorted pairLeP →
      (l.foldl (fun acc x => insertSorted x acc) acc).Sorted pairLeP
  | [], _, h => h
  | x :: xs, acc, h => by
      simp only [List.foldl_cons]
      exact foldl_insertSorted_sorted xs _ (insertSorted_sorted x acc h)

theorem sortPairs_sorted (l : List (String × String)) :
    (sortPairs l).Sorted pairLeP :=
  foldl_insertSorted_sorted l [] (by simp)

/-- The sort `run_query` performs (Python `sorted` on the raw pairs) is the
insertion sort by the non-strict pair order. -/
theorem sortPairs_eq_insertionSort (l : List (String × String)) :
    sortPairs l = List.insertionSort pairLeP l :=
  List.eq_of_perm_of_sorted
    ((sortPairs_perm l).trans (List.perm_insertionSort pairLeP l).symm)
    (sortPairs_sorted l) (List.sorted_insertionSort pairLeP l)

/-! Spec-side definitions for claim C1, written from the (amended) claim's
words: sort the raw pairs, percent-encode each side, join with `&`; the
string to sign is the four LF-joined lines; the POST body appends the
percent-encoded signature. -/

def specSignedHost (host : String) (port : Option Int) : String :=
  match port with
  | some p => host ++ ":" ++ toString p
  | none => host

def joinWith (sep : String) : List String → String
  | [] => ""
  | [x] => x
  | x :: xs => x ++ sep ++ joinWith sep xs

def specCanonicalParams (params : List (String × String)) : String :=
  String.intercalate "&"
    ((List.insertionSort pairLeP params).map fun kv => quote kv.1 ++ "=" ++ quote kv.2)

def specStringToSign (signedHost path canonical : String) : String :=
  joinWith "\n" ["POST", signedHost, path, canonical]

def specSignedBody (canonical signature : String) : String :=
  canonical ++ "&signature=" ++ quote signature

theorem joinWith_four (a b c d : String) :
    joinWith "\n" [a, b, c, d] = a ++ "\n" ++ b ++ "\n" ++ c ++ "\n" ++ d := by
  simp [joinWith, String.append_assoc]

/-- C1 counterexample: the claim sorts by the *encoded* (key, value) pairs,
the code sorts the raw pairs and then encodes.  With keys `a` and `{`
(`{` encodes to `%7B`, and `%` sorts before `a` while `{` sorts after),
the two orders differ, so the claimed canonical string differs from the
code's. -/
theorem canonical_params_sort_counterexample :
    canonicalParams [("a", "v"), ("\x7b", "v")] = "a=v&%7B=v" ∧
    claimedCanonicalParams [("a", "v"), ("\x7b", "v")] = "%7B=v&a=v" ∧
    claimedCanonicalParams [("a", "v"), ("\x7b", "v")] ≠
      canonicalParams [("a", "v"), ("\x7b", "v")] := by
  exact ⟨by decide, by decide, by decide⟩

/-- C1 (amended): for every parameter map, the signing step builds the
canonical parameter string by sorting the pairs lexicographically by the raw
(key, value) pair under string ordering, then percent-encoding each key and
value with `~` unescaped and joining `key=value` with `&`; the string to
sign is exactly the four LF-joined lines `POST`, the signed host, the path,
and that canonical string; and the POST body is the canonical string with
`&signature={percent-encoded base64 HMAC-SHA256 signature}` appended. -/
theorem run_query_signing (accessKey secretKey action : String)
    (params : List (String × String)) (uri version timestamp host path : String)
    (port : Option Int) (hparse : parse uri = .ok (host, port, path))
    (hpath : path ≠ "") :
    runQuerySign accessKey secretKey action params uri version timestamp =
      .ok (specSignedBody
        (specCanonicalParams
          (runQueryParamsAfter params accessKey action timestamp version))
        (b64encode (hmacSha256 (strBytes secretKey)
          (strBytes (specStringToSign (specSignedHost host port) path
            (specCanonicalParams
              (runQueryParamsAfter params accessKey action timestamp version))))))) := by
  unfold runQuerySign
  rw [hparse]
  simp only [specSignedBody, specCanonicalParams, specStringToSign, specSignedHost,
    joinWith_four, ← sortPairs_eq_insertionSort, if_neg hpath]

/-- Witness for C1 at a concrete URI with a non-empty path. -/
theorem run_query_signing_witness :
    (parse "https://landscape.canonical.com/api/" =
        .ok ("landscape.canonical.com", none, "/api/") ∧ "/api/" ≠ "") ∧
    runQuerySign "ak" "sk" "GetComputers" [] "https://landscape.canonical.com/api/"
        "2011-08-01" "2011-08-01T00:00:00Z" =
      .ok (specSignedBody
        (specCanonicalParams
          (runQueryParamsAfter [] "ak" "GetComputers" "2011-08-01T00:00:00Z" "2011-08-01"))
        (b64encode (hmacSha256 (strBytes "sk")
          (strBytes (specStringToSign (specSignedHost "landscape.canonical.com" none)
            "/api/"
            (specCanonicalParams
              (runQueryParamsAfter [] "ak" "GetComputers" "2011-08-01T00:00:00Z"
                "2011-08-01"))))))) :=
  ⟨⟨by decide, by decide⟩,
    run_query_signing "ak" "sk" "GetComputers" [] "https://landscape.canonical.com/api/"
      "2011-08-01" "2011-08-01T00:00:00Z" "landscape.canonical.com" "/api/" none
      (by decide) (by decide)⟩

/-! ## Claim C10 — non-numeric ports parse to `None` -/

theorem takeWhile_append_all {p : Char → Bool} :
    ∀ (l1 l2 : List Char), (∀ c ∈ l1, p c = true) →
      (l1 ++ l2).takeWhile p = l1 ++ l2.takeWhile p
  | [], _, _ => rfl
  | c :: l1, l2, h => by
      simp only [List.cons_append, List.takeWhile_cons, h c (List.mem_cons_self _ _),
        if_true]
      rw [takeWhile_append_all l1 l2 fun c hc => h c (List.mem_cons_of_mem _ hc)]

theorem dropWhile_append_all {p : Char → Bool} :
    ∀ (l1 l2 : List Char), (∀ c ∈ l1, p c = true) →
      (l1 ++ l2).dropWhile p = l2.dropWhile p
  | [], _, _ => rfl
  | c :: l1, l2, h => by
      simp only [List.cons_append, List.dropWhile_cons, h c (List.mem_cons_self _ _),
        if_true]
      exact dropWhile_append_all l1 l2 fun c hc => h c (List.mem_cons_of_mem _ hc)

theorem dropWhile_of_takeWhile_nil {p : Char → Bool} (l : List Char)
    (h : l.takeWhile p = []) : l.dropWhile p = l := by
  cases l with
  | nil => rfl
  | cons c rest =>
      rw [List.takeWhile_cons] at h
      cases hp : p c with
      | true => rw [hp] at h; simp at h
      | false => rw [List.dropWhile_cons, hp]; simp

theorem splitOnChar_no_sep (sep : Char) :
    ∀ l, (∀ c ∈ l, c ≠ sep) → splitOnChar sep l = [l]
  | [], _ => rfl
  | c :: rest, h => by
      have ih := splitOnChar_no_sep sep rest fun c hc => h c (List.mem_cons_of_mem _ hc)
      simp [splitOnChar, h c (List.mem_cons_self _ _), ih]

theorem splitOnChar_append_sep (sep : Char) :
    ∀ l1 l2, (∀ c ∈ l1, c ≠ sep) →
      splitOnChar sep (l1 ++ sep :: l2) = l1 :: splitOnChar sep l2
  | [], l2, _ => by simp [splitOnChar]
  | c :: l1, l2, h => by
      have ih := splitOnChar_append_sep sep l1 l2 fun c hc => h c (List.mem_cons_of_mem _ hc)
      simp [splitOnChar, h c (List.mem_cons_self _ _), ih]

theorem contains_append_cons (l1 l2 : List Char) (c : Char) :
    (l1 ++ c :: l2).contains c = true := by
  simp [List.contains]

theorem stringMk_data (s : String) : String.mk s.data = s := rfl

/-- The core of claim C10, stated after the scheme: parsing a stripped URL
whose authority is `host:portStr` with a single `:`, where `int(portStr)`
raises `ValueError`, yields the bare host and port `None`. -/
theorem parseAfterScheme_nonnumeric_port (host portStr pathStr : String)
    (hhost : ∀ c ∈ host.data, notNetlocEnd c = true ∧ c ≠ ':')
    (hportc : ∀ c ∈ portStr.data, notNetlocEnd c = true ∧ c ≠ ':')
    (hpath : pathStr.data.takeWhile notNetlocEnd = [])
    (hport : pyIntOption portStr = none) :
    parseAfterScheme (host.data ++ (':' :: (portStr.data ++ pathStr.data))) =
      .ok (host, none, String.mk (urlunparseTail pathStr.data)) := by
  have htake : (host.data ++ (':' :: (portStr.data ++ pathStr.data))).takeWhile
      notNetlocEnd = host.data ++ (':' :: portStr.data) := by
    rw [takeWhile_append_all _ _ fun c hc => (hhost c hc).1]
    rw [List.takeWhile_cons]
    rw [if_pos (show notNetlocEnd ':' = true from rfl)]
    rw [takeWhile_append_all _ _ fun c hc => (hportc c hc).1]
    rw [hpath, List.append_nil]
  have hdrop : (host.data ++ (':' :: (portStr.data ++ pathStr.data))).dropWhile
      notNetlocEnd = pathStr.data := by
    rw [dropWhile_append_all _ _ fun c hc => (hhost c hc).1]
    rw [List.dropWhile_cons]
    rw [if_pos (show notNetlocEnd ':' = true from rfl)]
    rw [dropWhile_append_all _ _ fun c hc => (hportc c hc).1]
    exact dropWhile_of_takeWhile_nil _ hpath
  unfold parseAfterScheme
  rw [htake, hdrop]
  unfold parseNetloc
  rw [contains_append_cons, if_pos rfl]
  rw [splitOnChar_append_sep ':' host.data portStr.data fun c hc => (hhost c hc).2]
  rw [splitOnChar_no_sep ':' portStr.data fun c hc => (hportc c hc).2]
  simp only [List.map_cons, List.map_nil, stringMk_data]
  rw [hport]

/-- C10: a URL `scheme://host:port…` that passes the http/https scheme
check, is already stripped, and whose single-`:` authority carries a port
`int()` rejects, parses with no error to the bare hostname and port `None` —
so the signed host `run_query` derives from it omits the port entirely. -/
theorem parse_nonnumeric_port (url schemeStr : String)
    (host portStr pathStr : String)
    (hscheme : schemeStr = "http://" ∨ schemeStr = "https://")
    (hurl : url.data = schemeStr.data ++
      (host.data ++ (':' :: (portStr.data ++ pathStr.data))))
    (hstrip : pyStripChars url.data = url.data)
    (hhost : ∀ c ∈ host.data, notNetlocEnd c = true ∧ c ≠ ':')
    (hportc : ∀ c ∈ portStr.data, notNetlocEnd c = true ∧ c ≠ ':')
    (hpath : pathStr.data.takeWhile notNetlocEnd = [])
    (hport : pyIntOption portStr = none) :
    parse url = .ok (host, none, String.mk (urlunparseTail pathStr.data)) ∧
    (match (none : Option Int) with
      | some p => host ++ ":" ++ toString p
      | none => host) = host := by
  refine ⟨?_, rfl⟩
  unfold parse parseL
  rcases hscheme with rfl | rfl
  · rw [hurl]
    have hlow : List.map asciiLowerChar "http://".data = "http://".data := by decide
    simp only [List.map_append, hlow, startsWithCh_append_self, Bool.true_or,
      Bool.not_true, Bool.false_eq_true, if_false]
    rw [← hurl, hstrip, hurl]
    unfold parseStripped
    have hdrop3 : ∀ t : List Char,
        (("http://".data ++ t).dropWhile (fun c => c ≠ ':')).drop 3 = t :=
      fun t => rfl
    rw [hdrop3]
    exact parseAfterScheme_nonnumeric_port host portStr pathStr hhost hportc hpath hport
  · rw [hurl]
    have hlow : List.map asciiLowerChar "https://".data = "https://".data := by decide
    simp only [List.map_append, hlow, startsWithCh_append_self, Bool.or_true,
      Bool.not_true, Bool.false_eq_true, if_false]
    rw [← hurl, hstrip, hurl]
    unfold parseStripped
    have hdrop3 : ∀ t : List Char,
        (("https://".data ++ t).dropWhile (fun c => c ≠ ':')).drop 3 = t :=
      fun t => rfl
    rw [hdrop3]
    exact parseAfterScheme_nonnumeric_port host portStr pathStr hhost hportc hpath hport

/-- Witness for C10: `https://example.com:beta/path` parses to host
`example.com`, port `None`, path `/path`. -/
theorem parse_nonnumeric_port_witness :
    (("https://" : String) = "http://" ∨ ("https://" : String) = "https://") ∧
    (("https://example.com:beta/path").data = ("https://").data ++
        ("example.com".data ++ (':' :: ("beta".data ++ "/path".data))) ∧
      pyStripChars ("https://example.com:beta/path").data =
        ("https://example.com:beta/path").data ∧
      pyIntOption "beta" = none) ∧
    (parse "https://example.com:beta/path" =
        .ok ("example.com", none, String.mk (urlunparseTail "/path".data)) ∧
      (match (none : Option Int) with
        | some p => "example.com" ++ ":" ++ toString p
        | none => "example.com") = "example.com") :=
  ⟨Or.inr rfl, ⟨by decide, by decide, by decide⟩,
    parse_nonnumeric_port "https://example.com:beta/path" "https://" "example.com"
      "beta" "/path" (Or.inr rfl) (by decide) (by decide) (by decide) (by decide)
      (by decide) (by decide)⟩

end LandscapeApi
